import Mathlib

/-!
Verification of the ts3_query protocol core against its specification.

The Rust sources are shallowly embedded: strings on the wire are byte
sequences, modelled as `List Nat` (each element a byte value). Pure Rust
functions from `src/raw.rs`, `src/lib.rs` and `src/managed.rs` become Lean
functions over these byte lists; the stateful response reader becomes a
fuelled recursion over an explicit input stream.
-/

namespace Ts3

/-- Byte strings (the contents of Rust `str`/`String`/`Vec<u8>` values). -/
abbrev Bytes := List Nat

/-- Bytes of an ASCII string literal (used only to build concrete inputs). -/
def bytes (s : String) : Bytes := s.data.map Char.toNat

/-! ## Codec (src/raw.rs)

`Escape::next` (src/raw.rs:140-197) maps each special byte to a two-byte
sequence: a backslash (92) followed by a fixed marker byte.  The iterator
buffers the marker; flattened here into a per-byte expansion. -/

/-- The marker byte `Escape::next` buffers for a special byte, `none` for a
byte that passes through unchanged (the `_ => Some(ch)` arm). -/
def escapeMarker (b : Nat) : Option Nat :=
  if b = 92 ∨ b = 47 then some b        -- b'\\' | b'/' => buffer = ch
  else if b = 32 then some 115          -- b' '  => buffer = b's'
  else if b = 124 then some 112         -- b'|'  => buffer = b'p'
  else if b = 7 then some 97            -- BEL   => buffer = b'a'
  else if b = 8 then some 98            -- BS    => buffer = b'b'
  else if b = 12 then some 102          -- FF    => buffer = b'f'
  else if b = 10 then some 110          -- LF    => buffer = b'n'
  else if b = 13 then some 114          -- CR    => buffer = b'r'
  else if b = 9 then some 116           -- TAB   => buffer = b't'
  else if b = 11 then some 118          -- VT    => buffer = b'v'
  else none

/-- Expansion of one input byte by the `Escape` iterator. -/
def escapeByte (b : Nat) : Bytes :=
  match escapeMarker b with
  | some m => [92, m]
  | none => [b]

/-- `escape_arg` (src/raw.rs:82-85): collect the `Escape` iterator. -/
def escape_arg : Bytes → Bytes
  | [] => []
  | b :: rest => escapeByte b ++ escape_arg rest

/-- The `match n` table inside `unescape_val` (src/raw.rs:95-106): the byte
pushed for `n` when the previous byte was an unescaped backslash.  The
default arm returns the byte itself (covers `\\` and `\/`). -/
def unescapeChar (b : Nat) : Nat :=
  if b = 115 then 32                    -- b's' => b' '
  else if b = 112 then 124              -- b'p' => b'|'
  else if b = 97 then 7                 -- b'a' => BEL
  else if b = 98 then 8                 -- b'b' => BS
  else if b = 102 then 12               -- b'f' => FF
  else if b = 110 then 10               -- b'n' => LF
  else if b = 114 then 13               -- b'r' => CR
  else if b = 116 then 9                -- b't' => TAB
  else if b = 118 then 11               -- b'v' => VT
  else b                                -- _ => *n, matches \\ \/ also

/-- The loop of `unescape_val` (src/raw.rs:88-117) with its `escaped` flag
made an explicit argument.  When the input ends while `escaped` is set, the
consumed backslash produces no output (the loop simply terminates). -/
def unescapeGo (escaped : Bool) : Bytes → Bytes
  | [] => []
  | b :: rest =>
    if !escaped && b = 92 then unescapeGo true rest
    else if escaped then unescapeChar b :: unescapeGo false rest
    else b :: unescapeGo false rest

/-- `unescape_val` (src/raw.rs:88-117). -/
def unescape_val (s : Bytes) : Bytes := unescapeGo false s

/-- Final value of the `escaped` flag after `unescape_val` processes `s`
(true exactly when `s` ends in the middle of an escape sequence). -/
def unescapePending (escaped : Bool) : Bytes → Bool
  | [] => escaped
  | b :: rest =>
    if !escaped && b = 92 then unescapePending true rest
    else unescapePending false rest

/-! ## Splitting helpers

Models of `str::split(char)` (keeps empty pieces, result never empty) and
`str::split_whitespace` (splits on whitespace runs, discards empty pieces),
specialised to byte lists. -/

/-- Split on every byte satisfying `p`, keeping empty pieces (the semantics
of Rust `split`). -/
def splitP (p : Nat → Bool) : Bytes → List Bytes
  | [] => [[]]
  | b :: rest =>
    if p b then [] :: splitP p rest
    else
      match splitP p rest with
      | [] => [[b]]
      | r :: rs => (b :: r) :: rs

/-- `str::split(sep)` for a one-byte separator. -/
def splitChar (sep : Nat) (l : Bytes) : List Bytes :=
  splitP (fun b => b == sep) l

/-- ASCII whitespace bytes (the `char::is_whitespace` bytes that can occur
in a single-byte position). -/
def isWsByte (b : Nat) : Bool :=
  b == 32 || b == 9 || b == 10 || b == 11 || b == 12 || b == 13

/-- `str::split_whitespace`: split on whitespace runs, no empty pieces. -/
def split_whitespace (l : Bytes) : List Bytes :=
  (splitP isWsByte l).filter (fun t => !t.isEmpty)

/-! ## Record parser (src/raw.rs)

Records (`HashMap<String, Option<String>>`) are modelled as association
lists; `insert` replaces any previous binding of the key, `lookup` finds
the binding.  Only key-to-value behaviour of the hash map is relied on. -/

/-- Model of `HashMap<String, Option<String>>`. -/
abbrev Record := List (Bytes × Option Bytes)

/-- `HashMap::insert`: replace any previous binding of `k`. -/
def insertRec (k : Bytes) (v : Option Bytes) (m : Record) : Record :=
  m.filter (fun p => !(p.1 == k)) ++ [(k, v)]

/-- `HashMap::get` (whether the key is bound, and to what). -/
def lookupRec (m : Record) (k : Bytes) : Option (Option Bytes) :=
  (m.find? (fun p => p.1 == k)).map Prod.snd

/-- `parse_single_line_hashmap` (src/raw.rs:33-51): split on whitespace
runs; for each token take the first two pieces of its split on 61 as key
and value; a token with no 61 maps the whole token to `none`. -/
def parse_single_line_hashmap (line : Bytes) (map : Record)
    (unescape : Bool) : Record :=
  (split_whitespace line).foldl
    (fun map e =>
      let entries := splitChar 61 e
      match entries.get? 0, entries.get? 1 with
      | some k, some v =>
          insertRec k (some (if unescape then unescape_val v else v)) map
      | _, _ => if !e.isEmpty then insertRec e none map else map)
    map

/-- `parse_hashmap` (src/raw.rs:24-30). -/
def parse_hashmap (input : List Bytes) (unescape : Bool) : Record :=
  input.foldl (fun map s => parse_single_line_hashmap s map unescape) []

/-! ## Numeric parsing

Models of `str::parse` for unsigned and signed integer types.  The usize
parse models the overflow (PosOverflow) failure; the generic signed parse
used by the typed extraction helpers does not model its type-dependent
bound, which no claim exercises. -/

/-- One decimal digit byte. -/
def digitVal? (b : Nat) : Option Nat :=
  if 48 ≤ b ∧ b ≤ 57 then some (b - 48) else none

def parseDigitsAux : Bytes → Nat → Option Nat
  | [], acc => some acc
  | b :: rest, acc =>
    match digitVal? b with
    | some d => parseDigitsAux rest (acc * 10 + d)
    | none => none

/-- A run of at least one decimal digit. -/
def parseDigits? (s : Bytes) : Option Nat :=
  if s.isEmpty then none else parseDigitsAux s 0

/-- `usize::MAX` on the 64-bit targets the crate is built for. -/
def USIZE_MAX : Nat := 2 ^ 64 - 1

/-- Model of `str::parse::<usize>` (src/lib.rs:891): optional leading plus
sign, then decimal digits; the parse fails (PosOverflow) when the value
exceeds `USIZE_MAX`. -/
def parseNat? (s : Bytes) : Option Nat :=
  match s with
  | [] => none
  | b :: rest =>
    match (if b = 43 then parseDigits? rest else parseDigits? (b :: rest)) with
    | none => none
    | some n => if n ≤ USIZE_MAX then some n else none

/-- Model of `str::parse` at a signed integer type (src/raw.rs:347):
optional leading plus or minus sign, then decimal digits. -/
def parseInt? (s : Bytes) : Option Int :=
  match s with
  | [] => none
  | b :: rest =>
    if b = 43 then (parseDigits? rest).map (fun n => (n : Int))
    else if b = 45 then (parseDigits? rest).map (fun n => -(n : Int))
    else (parseDigits? (b :: rest)).map (fun n => (n : Int))

/-! ## Status-line decoding (src/lib.rs) -/

/-- Outcome of `QueryClient::check_ok` (src/lib.rs:876-912). -/
inductive CheckResult where
  | ok : CheckResult
  | serverError (id : Nat) (msg : Bytes) : CheckResult
  | invalidResponse : CheckResult
deriving DecidableEq

/-- `QueryClient::check_ok` (src/lib.rs:876-912): split the line on spaces,
take tokens 1 and 2, split each once more on 61 and take piece 1 of each;
parse the id as an unsigned integer; nonzero id is a server error carrying
the unescaped message piece; any extraction or parse failure is the
invalid-response (framing) error. -/
def check_ok (msg : Bytes) : CheckResult :=
  let result := splitChar 32 msg
  match result.get? 1, result.get? 2 with
  | some idTok, some msgTok =>
    let split_id := splitChar 61 idTok
    let split_msg := splitChar 61 msgTok
    match split_id.get? 1, split_msg.get? 1 with
    | some idPiece, some msgPiece =>
      match parseNat? idPiece with
      | none => .invalidResponse
      | some id =>
        if id ≠ 0 then .serverError id (unescape_val msgPiece)
        else .ok
    | _, _ => .invalidResponse
  | _, _ => .invalidResponse

/-- A status line `error id=<idStr> msg=<m>` assembled from its id text
and message text (byte 32 is the space, byte 61 the equals sign; the
letter lists spell `error`, `id` and `msg`). -/
def mkStatusLine (idStr m : Bytes) : Bytes :=
  [101, 114, 114, 111, 114] ++
    (32 :: (([105, 100] ++ (61 :: idStr)) ++
      (32 :: ([109, 115, 103] ++ (61 :: m)))))

/-! ## Response reader (src/lib.rs) -/

/-- Default DoS limit for read lines (src/lib.rs:422). -/
def LIMIT_READ_LINES : Nat := 100

/-- Default DoS limit for read bytes per line (src/lib.rs:424). -/
def LIMIT_LINE_BYTES : Nat := 64000

/-- The (lo, hi) ranges the bytes following a UTF-8 leading byte must lie
in (the RFC 3629 well-formedness table); `none` for an invalid leading
byte. -/
def utf8Follow (b : Nat) : Option (List (Nat × Nat)) :=
  if b ≤ 127 then some []
  else if 194 ≤ b ∧ b ≤ 223 then some [(128, 191)]
  else if b = 224 then some [(160, 191), (128, 191)]
  else if (225 ≤ b ∧ b ≤ 236) ∨ b = 238 ∨ b = 239 then
    some [(128, 191), (128, 191)]
  else if b = 237 then some [(128, 159), (128, 191)]
  else if b = 240 then some [(144, 191), (128, 191), (128, 191)]
  else if 241 ≤ b ∧ b ≤ 243 then
    some [(128, 191), (128, 191), (128, 191)]
  else if b = 244 then some [(128, 143), (128, 191), (128, 191)]
  else none

/-- Consume the continuation bytes demanded by a range list, returning the
remaining bytes. -/
def takeRanges : List (Nat × Nat) → Bytes → Option Bytes
  | [], s => some s
  | (lo, hi) :: rs, b :: s =>
    if lo ≤ b ∧ b ≤ hi then takeRanges rs s else none
  | _ :: _, [] => none

/-- Fuelled UTF-8 scan; the fuel is the length of the original input. -/
def validUtf8Fuel : Nat → Bytes → Bool
  | _, [] => true
  | 0, _ :: _ => false
  | fuel + 1, b :: rest =>
    match utf8Follow b with
    | none => false
    | some ranges =>
      match takeRanges ranges rest with
      | none => false
      | some r => validUtf8Fuel fuel r

/-- UTF-8 validity of a byte sequence (RFC 3629 table), modelling the check
`String::from_utf8` performs in `read_response` (src/lib.rs:829). -/
def validUtf8 (s : Bytes) : Bool := validUtf8Fuel s.length s

/-- Outcome of `QueryClient::read_response` (src/lib.rs:800-841). -/
inductive ReadResult where
  | ok (lines : List Bytes)
  | connectionClosed
  | invalidResponse
  | utf8Error
  | responseLimit (lines : List Bytes)
  | serverError (id : Nat) (msg : Bytes)
deriving DecidableEq

/-- Model of `Take::read_until(b'\r')` (src/lib.rs:802-806): read at most
`limit` bytes from `stream`, stopping after the first 13.  Returns the
bytes read (terminator included when reached), the remaining stream, and
the remaining byte budget of the `Take` wrapper. -/
def readUntilCR : Nat → Bytes → Bytes × Bytes × Nat
  | 0, s => ([], s, 0)
  | limit + 1, [] => ([], [], limit + 1)
  | limit + 1, b :: rest =>
    if b = 13 then ([13], rest, limit)
    else
      match readUntilCR limit rest with
      | (buf, s, rem) => (b :: buf, s, rem)

/-- The `for _ in 0..self.limit_lines` loop of `read_response`
(src/lib.rs:803-839), with the loop index turned into fuel.  `limit` is
the current byte budget of the `Take` wrapper; after each completed line
the source resets it to the constant `LIMIT_LINE_BYTES`
(`lr.set_limit(LIMIT_LINE_BYTES)`, src/lib.rs:838), not to the configured
`self.limit_lines_bytes`. -/
def readResponseLoop : Nat → Nat → Bytes → List Bytes → ReadResult
  | 0, _, _, result => .responseLimit result
  | fuel + 1, limit, stream, result =>
    match readUntilCR limit stream with
    | (buffer, rest, rem) =>
      if buffer.isEmpty then .connectionClosed
      else if buffer.getLast? = some 13 then
        let buffer := buffer.dropLast
        let line := if buffer.getLast? = some 10 then buffer.dropLast else buffer
        if line.isEmpty then
          readResponseLoop fuel LIMIT_LINE_BYTES rest result
        else if validUtf8 line then
          if (bytes "error ").isPrefixOf line then
            match check_ok line with
            | .ok => .ok result
            | .serverError i m => .serverError i m
            | .invalidResponse => .invalidResponse
          else
            readResponseLoop fuel LIMIT_LINE_BYTES rest (result ++ [line])
        else .utf8Error
      else if rem = 0 then .responseLimit result
      else .invalidResponse

/-- `QueryClient::read_response` (src/lib.rs:800-841) on an explicit input
stream, with the two configured DoS limits as arguments. -/
def readResponse (limit_lines limit_lines_bytes : Nat) (stream : Bytes) :
    ReadResult :=
  readResponseLoop limit_lines limit_lines_bytes stream []

/-- A response stream assembled from raw line bodies, each followed by the
13 terminator. -/
def encodeStream : List Bytes → Bytes
  | [] => []
  | l :: ls => (l ++ [13]) ++ encodeStream ls

/-- The decoded form of a raw line body: after popping the 13 terminator,
`read_response` also pops one optional trailing 10. -/
def decodeLine (l : Bytes) : Bytes :=
  if l.getLast? = some 10 then l.dropLast else l

/-! ## Typed field extraction (src/raw.rs) -/

/-- The error variants the typed extraction helpers can produce. -/
inductive Ts3Error where
  /-- Modelled from the spec: the field-missing error `NoEntryResponse` is
  referenced by src/raw.rs but its declaration is not among the sources
  under src/ (the `Ts3Error` enum in src/lib.rs:115-174 lacks it); the spec
  describes it as the "key absent" error, distinct from the "key present
  but no value" error. -/
  | noEntryResponse (key : Bytes)
  /-- `Ts3Error::NoValueResponse` (src/lib.rs:168-173). -/
  | noValueResponse (key : Bytes)
  /-- `Ts3Error::InvalidIntResponse` (src/lib.rs:143-149). -/
  | invalidIntResponse (data : Bytes)
deriving DecidableEq

/-- `HashMap::remove`: the removed binding (if any) and the map without
the key. -/
def removeRec (data : Record) (key : Bytes) :
    Option (Option Bytes) × Record :=
  (lookupRec data key, data.filter (fun p => !(p.1 == key)))

/-- `string_val_parser_opt` (src/raw.rs:279-287): remove the key; missing
key is the field-missing error; a present value is unescaped. -/
def string_val_parser_opt (data : Record) (key : Bytes) :
    Except Ts3Error (Option Bytes) × Record :=
  match removeRec data key with
  | (none, d) => (.error (.noEntryResponse key), d)
  | (some v, d) => (.ok (v.map unescape_val), d)

/-- `stringValParser` (src/raw.rs:364-369). -/
def stringValParser (data : Record) (key : Bytes) :
    Except Ts3Error Bytes × Record :=
  match string_val_parser_opt data key with
  | (.error e, d) => (.error e, d)
  | (.ok none, d) => (.error (.noValueResponse key), d)
  | (.ok (some v), d) => (.ok v, d)

/-- `intValParser` (src/raw.rs:336-349). -/
def intValParser (data : Record) (key : Bytes) :
    Except Ts3Error Int × Record :=
  match removeRec data key with
  | (none, d) => (.error (.noEntryResponse key), d)
  | (some none, d) => (.error (.noValueResponse key), d)
  | (some (some v), d) =>
    match parseInt? v with
    | none => (.error (.invalidIntResponse v), d)
    | some n => (.ok n, d)

/-- The `split(",").map(parse).collect::<Result<_>>` step of
`intListValParser` (src/raw.rs:233-239): first parse failure wins. -/
def parseIntPieces : List Bytes → Except Ts3Error (List Int)
  | [] => .ok []
  | p :: rest =>
    match parseInt? p with
    | none => .error (.invalidIntResponse p)
    | some n =>
      match parseIntPieces rest with
      | .error e => .error e
      | .ok ns => .ok (n :: ns)

/-- `intListValParser` (src/raw.rs:225-242). -/
def intListValParser (data : Record) (key : Bytes) :
    Except Ts3Error (List Int) × Record :=
  match stringValParser data key with
  | (.error e, d) => (.error e, d)
  | (.ok v, d) => (parseIntPieces (splitChar 44 v), d)

/-! ## Managed connection (src/managed.rs) -/

/-- `MAX_LEN_NAME` (src/managed.rs:25). -/
def MAX_LEN_NAME : Nat := 20

def natDigitsAux : Nat → Bytes → Bytes
  | 0, acc => acc
  | n + 1, acc => natDigitsAux ((n + 1) / 10) (((n + 1) % 10 + 48) :: acc)
decreasing_by exact Nat.div_lt_self (Nat.succ_pos n) (by omega)

/-- Decimal digit bytes of `n` (the `to_string` of the millis value,
src/managed.rs:155-159). -/
def natDigits (n : Nat) : Bytes :=
  if n = 0 then [48] else natDigitsAux n []

/-- `ManagedConnection::calc_name_retry` (src/managed.rs:148-168), with the
current wall-clock milliseconds taken as an explicit input (the source
spells the remaining-budget variable `reamining`). -/
def calc_name_retry (name : Bytes) (now_millis : Nat) : Bytes :=
  let name :=
    if MAX_LEN_NAME - 2 ≤ name.length then name.take (MAX_LEN_NAME / 2)
    else name
  let time := natDigits now_millis
  let reamining := MAX_LEN_NAME - name.length
  let time :=
    if time.length < reamining then time
    else time.drop (time.length - reamining)
  name ++ time

/-- The truncated base name `calc_name_retry` starts from: the first
`MAX_LEN_NAME / 2` bytes when the name is within two bytes of the maximum
length, the whole name otherwise. -/
def calcNameBase (name : Bytes) : Bytes :=
  if MAX_LEN_NAME - 2 ≤ name.length then name.take (MAX_LEN_NAME / 2)
  else name

/-- `ManagedConfig` (src/managed.rs:47-55); the socket address and the two
timeout durations are abstracted to opaque numbers. -/
structure ManagedConfig where
  addr : Nat
  user : Bytes
  password : Bytes
  server_port : Nat
  conn_timeout : Nat
  cmd_timeout : Nat
  name : Option Bytes
deriving DecidableEq

/-- The configuration `ManagedConnection::clone` (src/managed.rs:185-191)
actually passes to `Self::new`: a locally modified copy is built and then
discarded — `Self::new(self.cfg.clone())` passes the unmodified original
configuration. -/
def clone_config (cfg : ManagedConfig) (new_name : Option Bytes) :
    ManagedConfig :=
  let _cfg := if new_name.isSome then { cfg with name := new_name } else cfg
  cfg

/-- Modelled from the spec: the configuration a sibling connection is meant
to be built from — the same configuration with only the display name
optionally overridden ("build a second Managed Connection from the same
configuration, optionally overriding only the display name").  Used as the
spec-side reference the clone claim compares against. -/
def clone_config_intended (cfg : ManagedConfig) (new_name : Option Bytes) :
    ManagedConfig :=
  if new_name.isSome then { cfg with name := new_name } else cfg

/-- A concrete configuration used to exhibit the clone name-override bug. -/
def cfgOrig : ManagedConfig :=
  ⟨0, bytes "admin", bytes "pw", 9987, 1500, 1500, some (bytes "orig")⟩

/-! # Theorems -/

/-! ## C1: escape/unescape roundtrip -/

theorem unescapeGo_escapeByte (b : Nat) (t : Bytes) :
    unescapeGo false (escapeByte b ++ t) = b :: unescapeGo false t := by
  unfold escapeByte escapeMarker
  split_ifs with h1 h2 h3 h4 h5 h6 h7 h8 h9 h10
  · rcases h1 with h | h <;> subst h <;> simp [unescapeGo, unescapeChar]
  · subst h2; simp [unescapeGo, unescapeChar]
  · subst h3; simp [unescapeGo, unescapeChar]
  · subst h4; simp [unescapeGo, unescapeChar]
  · subst h5; simp [unescapeGo, unescapeChar]
  · subst h6; simp [unescapeGo, unescapeChar]
  · subst h7; simp [unescapeGo, unescapeChar]
  · subst h8; simp [unescapeGo, unescapeChar]
  · subst h9; simp [unescapeGo, unescapeChar]
  · subst h10; simp [unescapeGo, unescapeChar]
  · have hb : b ≠ 92 := fun e => h1 (Or.inl e)
    simp [unescapeGo, hb]

/-- C1.
For every byte string s, unescaping the escaped form returns the original:
`unescape_val (escape_arg s) = s`. -/
theorem unescape_escape_roundtrip (s : Bytes) :
    unescape_val (escape_arg s) = s := by
  induction s with
  | nil => rfl
  | cons b rest ih =>
    show unescapeGo false (escapeByte b ++ escape_arg rest) = b :: rest
    rw [unescapeGo_escapeByte]
    exact congrArg (b :: ·) ih

/-! ## C6: trailing lone backslash -/

theorem unescapeGo_append_backslash (s : Bytes) :
    ∀ e : Bool, unescapePending e s = false →
      unescapeGo e (s ++ [92]) = unescapeGo e s := by
  induction s with
  | nil =>
    intro e he
    have h0 : e = false := by simpa [unescapePending] using he
    subst h0
    rfl
  | cons b rest ih =>
    intro e he
    by_cases h : (!e && decide (b = 92)) = true
    · have he2 : unescapePending true rest = false := by
        simpa [unescapePending, h] using he
      simp only [List.cons_append, unescapeGo, h, if_true]
      exact ih true he2
    · have he2 : unescapePending false rest = false := by
        simpa [unescapePending, h] using he
      cases e with
      | false =>
        simp only [List.cons_append, unescapeGo, h, if_false, Bool.false_eq_true]
        exact congrArg (b :: ·) (ih false he2)
      | true =>
        simp only [List.cons_append, unescapeGo, h, if_false]
        exact congrArg (unescapeChar b :: ·) (ih false he2)

/-- C6 counterexample: on the input consisting of a single lone backslash,
`unescape_val` returns the empty string, not a literal backslash as the
claim states. -/
theorem unescape_trailing_backslash_claim_false :
    unescape_val [92] = [] ∧ ([] : Bytes) ≠ [92] := by decide

/-- C6 (amended).
A trailing lone backslash (a final 92 with no following byte) is consumed
by the `escaped` flag of `unescape_val` and produces no output byte: for
every input `s` that does not itself end mid-escape,
`unescape_val (s ++ [92]) = unescape_val s` — the trailing backslash is
dropped, not kept as a literal backslash. -/
theorem unescape_trailing_backslash_dropped (s : Bytes)
    (h : unescapePending false s = false) :
    unescape_val (s ++ [92]) = unescape_val s :=
  unescapeGo_append_backslash s false h

theorem unescape_trailing_backslash_dropped_witness :
    unescapePending false (bytes "abc") = false ∧
      unescape_val (bytes "abc" ++ [92]) = unescape_val (bytes "abc") :=
  ⟨by decide, unescape_trailing_backslash_dropped (bytes "abc") (by decide)⟩

/-! ## C7: no raw protocol-special bytes in escaped output -/

theorem escapeMarker_none_not_special (a : Nat) (h : escapeMarker a = none) :
    a ≠ 32 ∧ a ≠ 124 ∧ a ≠ 7 ∧ a ≠ 8 ∧ a ≠ 9 ∧ a ≠ 10 ∧ a ≠ 11 ∧
      a ≠ 12 ∧ a ≠ 13 := by
  unfold escapeMarker at h
  split_ifs at h
  all_goals first | exact Option.noConfusion h | omega

theorem escapeMarker_some_markers (a m : Nat) (h : escapeMarker a = some m) :
    m = 92 ∨ m = 47 ∨ m = 115 ∨ m = 112 ∨ m = 97 ∨ m = 98 ∨ m = 102 ∨
      m = 110 ∨ m = 114 ∨ m = 116 ∨ m = 118 := by
  unfold escapeMarker at h
  split_ifs at h <;>
    first
    | exact Option.noConfusion h
    | (injection h with h; omega)

/-- C7 counterexample: the control byte 0x01 is a C0 control byte, yet
`escape_arg` passes it through raw — the output is the bare byte 1 with no
backslash at all, so the output does contain a bare C0 control byte outside
any two-byte escape sequence. -/
theorem escape_control_bytes_claim_false :
    escape_arg [1] = [1] ∧ 1 < 32 ∧ 92 ∉ escape_arg [1] := by decide

/-- C7 (amended).
For every input, the output of `escape_arg` never contains a space byte, a
pipe byte, or any of the control bytes BEL, BS, TAB, LF, VT, FF, CR at all
(each such input byte is emitted as a backslash-plus-marker pair); C0
control bytes outside this set (e.g. 0x01) pass through unchanged, so the
claim as stated fails for them. -/
theorem escape_no_raw_special (s : Bytes) (b : Nat)
    (hb : b ∈ escape_arg s) :
    b ∉ ([32, 124, 7, 8, 9, 10, 11, 12, 13] : Bytes) := by
  induction s with
  | nil => simp [escape_arg] at hb
  | cons a rest ih =>
    rw [escape_arg] at hb
    rcases List.mem_append.mp hb with h | h
    · cases hm : escapeMarker a with
      | none =>
        have ha := escapeMarker_none_not_special a hm
        have hea : escapeByte a = [a] := by simp [escapeByte, hm]
        rw [hea] at h
        have hba : b = a := by simpa using h
        subst hba
        intro hmem
        simp only [List.mem_cons, List.not_mem_nil, or_false] at hmem
        omega
      | some m =>
        have hmk := escapeMarker_some_markers a m hm
        have hea : escapeByte a = [92, m] := by simp [escapeByte, hm]
        rw [hea] at h
        have hbm : b = 92 ∨ b = m := by simpa using h
        intro hmem
        simp only [List.mem_cons, List.not_mem_nil, or_false] at hmem
        omega
    · exact ih h

theorem escape_no_raw_special_witness :
    92 ∈ escape_arg [32] ∧ 92 ∉ ([32, 124, 7, 8, 9, 10, 11, 12, 13] : Bytes) :=
  ⟨by decide, escape_no_raw_special [32] 92 (by decide)⟩

/-! ## Splitting lemmas -/

theorem splitP_ne_nil (p : Nat → Bool) (l : Bytes) : splitP p l ≠ [] := by
  cases l with
  | nil => simp [splitP]
  | cons b rest =>
    by_cases h : p b = true
    · simp [splitP, h]
    · simp only [splitP, h, if_false, Bool.false_eq_true]
      cases hr : splitP p rest with
      | nil => simp
      | cons r rs => simp

theorem splitP_no_sep (p : Nat → Bool) (l : Bytes)
    (h : ∀ b ∈ l, p b = false) : splitP p l = [l] := by
  induction l with
  | nil => rfl
  | cons b rest ih =>
    have hb : p b = false := h b (List.mem_cons_self b rest)
    have hrest := ih (fun x hx => h x (List.mem_cons_of_mem b hx))
    simp [splitP, hb, hrest]

theorem splitP_append_sep (p : Nat → Bool) (l r : Bytes) (c : Nat)
    (h : ∀ b ∈ l, p b = false) (hc : p c = true) :
    splitP p (l ++ c :: r) = l :: splitP p r := by
  induction l with
  | nil => simp [splitP, hc]
  | cons b rest ih =>
    have hb : p b = false := h b (List.mem_cons_self b rest)
    have hrest := ih (fun x hx => h x (List.mem_cons_of_mem b hx))
    show splitP p (b :: (rest ++ c :: r)) = (b :: rest) :: splitP p r
    rw [splitP, hrest]
    simp [hb]

/-! ## C5: token value is the piece between the first two equals signs -/

theorem split_whitespace_single (l : Bytes) (hne : l ≠ [])
    (h : ∀ b ∈ l, isWsByte b = false) : split_whitespace l = [l] := by
  rw [split_whitespace, splitP_no_sep isWsByte l h]
  simp [hne]

/-- C5 counterexample: on the token `a=b=c` the parsed value is only `b`,
the piece between the first and the second equals sign — not the entire
remainder `b=c` the claim requires. -/
theorem parse_record_value_claim_false :
    lookupRec (parse_hashmap [bytes "a=b=c"] false) (bytes "a")
        = some (some (bytes "b"))
      ∧ bytes "b" ≠ bytes "b=c" := by decide

/-- C5 (amended).
Record parsing splits the line on ASCII whitespace runs into tokens and
takes the first two pieces of each token split on 61: the value is the
piece between the first and the second equals sign (any further equals
sign and the text after it are dropped), not the entire remainder; a
non-empty token with no equals sign maps the whole token to `none`; the
concrete example of the claim is unchanged. -/
theorem parse_record_spec (k v w : Bytes) (m : Record) (u : Bool)
    (hk61 : ∀ b ∈ k, b ≠ 61) (hv61 : ∀ b ∈ v, b ≠ 61)
    (hkw : ∀ b ∈ k, isWsByte b = false) (hvw : ∀ b ∈ v, isWsByte b = false)
    (hww : ∀ b ∈ w, isWsByte b = false) (hkne : k ≠ []) :
    parse_single_line_hashmap (k ++ 61 :: (v ++ 61 :: w)) m u
        = insertRec k (some (if u then unescape_val v else v)) m
      ∧ parse_single_line_hashmap k m u = insertRec k none m
      ∧ (lookupRec (parse_hashmap [bytes "clid=1776 cid=9391 foo client_type=1"] false)
            (bytes "clid") = some (some (bytes "1776"))
        ∧ lookupRec (parse_hashmap [bytes "clid=1776 cid=9391 foo client_type=1"] false)
            (bytes "cid") = some (some (bytes "9391"))
        ∧ lookupRec (parse_hashmap [bytes "clid=1776 cid=9391 foo client_type=1"] false)
            (bytes "foo") = some none
        ∧ lookupRec (parse_hashmap [bytes "clid=1776 cid=9391 foo client_type=1"] false)
            (bytes "client_type") = some (some (bytes "1"))
        ∧ (parse_hashmap [bytes "clid=1776 cid=9391 foo client_type=1"] false).length = 4) := by
  refine ⟨?_, ?_, by decide⟩
  · have hws : ∀ b ∈ k ++ 61 :: (v ++ 61 :: w), isWsByte b = false := by
      intro b hb
      rcases List.mem_append.mp hb with hb | hb
      · exact hkw b hb
      · rcases List.mem_cons.mp hb with hb | hb
        · subst hb; decide
        · rcases List.mem_append.mp hb with hb | hb
          · exact hvw b hb
          · rcases List.mem_cons.mp hb with hb | hb
            · subst hb; decide
            · exact hww b hb
    have hne : k ++ 61 :: (v ++ 61 :: w) ≠ [] := by simp
    have hsplitk : ∀ b ∈ k, (fun x => x == (61 : Nat)) b = false := by
      intro b hb; simpa using hk61 b hb
    have hsplitv : ∀ b ∈ v, (fun x => x == (61 : Nat)) b = false := by
      intro b hb; simpa using hv61 b hb
    have hsc : splitChar 61 (k ++ 61 :: (v ++ 61 :: w))
        = k :: v :: splitP (fun x => x == (61 : Nat)) w := by
      rw [splitChar,
        splitP_append_sep (fun x => x == (61 : Nat)) k (v ++ 61 :: w) 61
          hsplitk (by simp),
        splitP_append_sep (fun x => x == (61 : Nat)) v w 61
          hsplitv (by simp)]
    rw [parse_single_line_hashmap, split_whitespace_single _ hne hws]
    simp only [List.foldl_cons, List.foldl_nil, hsc, List.get?]
  · have hsk : splitChar 61 k = [k] :=
      splitP_no_sep _ k (by intro b hb; simpa using hk61 b hb)
    obtain ⟨a, t, rfl⟩ : ∃ a t, k = a :: t := by
      cases k with
      | nil => exact absurd rfl hkne
      | cons a t => exact ⟨a, t, rfl⟩
    rw [parse_single_line_hashmap, split_whitespace_single _ hkne hkw]
    simp only [List.foldl_cons, List.foldl_nil, hsk, List.get?]
    simp [insertRec]

theorem parse_record_spec_witness :
    (∀ b ∈ bytes "a", b ≠ 61) ∧
      parse_single_line_hashmap (bytes "a" ++ 61 :: (bytes "b" ++ 61 :: bytes "c")) [] false
        = insertRec (bytes "a") (some (bytes "b")) [] := by
  refine ⟨by decide, ?_⟩
  have h := parse_record_spec (bytes "a") (bytes "b") (bytes "c") [] false
    (by decide) (by decide) (by decide) (by decide) (by decide) (by decide)
  simpa using h.1

/-! ## C2: status-line decoding -/

theorem parseDigitsAux_digits (s : Bytes) :
    ∀ acc n, parseDigitsAux s acc = some n → ∀ b ∈ s, 48 ≤ b ∧ b ≤ 57 := by
  induction s with
  | nil => intro _ _ _ b hb; simp at hb
  | cons c rest ih =>
    intro acc n h b hb
    rw [parseDigitsAux] at h
    cases hd : digitVal? c with
    | none => rw [hd] at h; exact Option.noConfusion h
    | some d =>
      rw [hd] at h
      rcases List.mem_cons.mp hb with hb | hb
      · subst hb
        unfold digitVal? at hd
        split_ifs at hd with hc
        exact hc
      · exact ih _ _ h b hb

theorem parseDigits?_digits (s : Bytes) (n : Nat)
    (h : parseDigits? s = some n) : ∀ b ∈ s, 48 ≤ b ∧ b ≤ 57 := by
  unfold parseDigits? at h
  by_cases he : s.isEmpty = true
  · rw [if_pos he] at h; exact Option.noConfusion h
  · rw [if_neg he] at h; exact parseDigitsAux_digits s 0 n h

theorem parseNat?_bytes (s : Bytes) (n : Nat) (h : parseNat? s = some n) :
    ∀ b ∈ s, b = 43 ∨ (48 ≤ b ∧ b ≤ 57) := by
  cases s with
  | nil => intro b hb; simp at hb
  | cons c rest =>
    by_cases hc : c = 43
    · subst hc
      rcases hpd : parseDigits? rest with _ | n0
      · have h2 : parseNat? (43 :: rest) = none := by
          simp [parseNat?, hpd]
        rw [h2] at h
        exact absurd h (by simp)
      · intro b hb
        rcases List.mem_cons.mp hb with hb | hb
        · exact Or.inl hb
        · exact Or.inr (parseDigits?_digits rest n0 hpd b hb)
    · rcases hpd : parseDigits? (c :: rest) with _ | n0
      · have h2 : parseNat? (c :: rest) = none := by
          simp [parseNat?, hc, hpd]
        rw [h2] at h
        exact absurd h (by simp)
      · intro b hb
        exact Or.inr (parseDigits?_digits (c :: rest) n0 hpd b hb)

theorem parseNat?_no_sep (s : Bytes) (n : Nat) (h : parseNat? s = some n) :
    ∀ b ∈ s, ((b == (32 : Nat)) = false ∧ (b == (61 : Nat)) = false) := by
  intro b hb
  rcases parseNat?_bytes s n h b hb with h1 | h1
  · subst h1; exact ⟨by decide, by decide⟩
  · constructor <;> (simp only [beq_eq_false_iff_ne, ne_eq]; omega)

/-- General decode of an assembled status line: with the id text free of
space and equals bytes and the message text free of space bytes,
`check_ok` parses the id text as a usize and, on a nonzero id, delivers
the unescaped first equals-separated piece of the message text. -/
theorem check_ok_mkStatusLine (idStr mm : Bytes)
    (hid32 : ∀ b ∈ idStr, (fun x => x == (32 : Nat)) b = false)
    (hid61 : ∀ b ∈ idStr, (fun x => x == (61 : Nat)) b = false)
    (hm32 : ∀ b ∈ mm, (fun x => x == (32 : Nat)) b = false) :
    check_ok (mkStatusLine idStr mm)
      = match parseNat? idStr with
        | none => CheckResult.invalidResponse
        | some id =>
          if id ≠ 0 then
            CheckResult.serverError id
              (unescape_val ((splitChar 61 mm).headI))
          else CheckResult.ok := by
  have hB32 : ∀ b ∈ [105, 100] ++ 61 :: idStr,
      (fun x => x == (32 : Nat)) b = false := by
    intro b hb
    rcases List.mem_append.mp hb with hb | hb
    · rcases List.mem_cons.mp hb with hb | hb
      · subst hb; decide
      · rcases List.mem_cons.mp hb with hb | hb
        · subst hb; decide
        · simp at hb
    · rcases List.mem_cons.mp hb with hb | hb
      · subst hb; decide
      · exact hid32 b hb
  have hC32 : ∀ b ∈ [109, 115, 103] ++ 61 :: mm,
      (fun x => x == (32 : Nat)) b = false := by
    intro b hb
    rcases List.mem_append.mp hb with hb | hb
    · rcases List.mem_cons.mp hb with hb | hb
      · subst hb; decide
      · rcases List.mem_cons.mp hb with hb | hb
        · subst hb; decide
        · rcases List.mem_cons.mp hb with hb | hb
          · subst hb; decide
          · simp at hb
    · rcases List.mem_cons.mp hb with hb | hb
      · subst hb; decide
      · exact hm32 b hb
  have hsplit : splitChar 32 (mkStatusLine idStr mm)
      = [101, 114, 114, 111, 114] :: ([105, 100] ++ 61 :: idStr)
          :: [[109, 115, 103] ++ 61 :: mm] := by
    rw [mkStatusLine, splitChar,
      splitP_append_sep (fun x => x == (32 : Nat)) [101, 114, 114, 111, 114]
        (([105, 100] ++ (61 :: idStr)) ++ (32 :: ([109, 115, 103] ++ (61 :: mm))))
        32 (by decide) (by decide),
      splitP_append_sep (fun x => x == (32 : Nat)) ([105, 100] ++ (61 :: idStr))
        ([109, 115, 103] ++ (61 :: mm)) 32 hB32 (by decide),
      splitP_no_sep (fun x => x == (32 : Nat)) ([109, 115, 103] ++ (61 :: mm))
        hC32]
  have hsplitId : splitChar 61 ([105, 100] ++ 61 :: idStr)
      = [[105, 100], idStr] := by
    rw [splitChar,
      splitP_append_sep (fun x => x == (61 : Nat)) [105, 100] idStr 61
        (by decide) (by decide),
      splitP_no_sep (fun x => x == (61 : Nat)) idStr hid61]
  have hsplitMsg : splitChar 61 ([109, 115, 103] ++ 61 :: mm)
      = [109, 115, 103] :: splitChar 61 mm := by
    rw [splitChar,
      splitP_append_sep (fun x => x == (61 : Nat)) [109, 115, 103] mm 61
        (by decide) (by decide)]
    rfl
  simp only [check_ok]
  rw [hsplit]
  show (match (splitChar 61 ([105, 100] ++ 61 :: idStr)).get? 1,
             (splitChar 61 ([109, 115, 103] ++ 61 :: mm)).get? 1 with
       | some idPiece, some msgPiece =>
         match parseNat? idPiece with
         | none => CheckResult.invalidResponse
         | some id =>
           if id ≠ 0 then CheckResult.serverError id (unescape_val msgPiece)
           else CheckResult.ok
       | _, _ => CheckResult.invalidResponse) = _
  rw [hsplitId, hsplitMsg]
  rcases hsp : splitChar 61 mm with _ | ⟨p0, ps⟩
  · exact absurd hsp (splitP_ne_nil _ mm)
  · rfl

/-- C2 counterexample: for the status line `error id=512 msg=a=b` the code
returns the message text `a` — the piece of the msg token between its
first and second equals signs — not the full unescaped message `a=b` the
claim requires; the equals sign is never escaped, so it is legal in
escaped message text. -/
theorem check_ok_msg_truncation_claim_false :
    check_ok (bytes "error id=512 msg=a=b")
        = .serverError 512 (bytes "a")
      ∧ bytes "a" ≠ bytes "a=b" := by decide

/-- C2 (amended).
Decoding a status line `error id=<idStr> msg=<m>`, where the id text
parses as the usize n (an id exceeding usize::MAX fails the parse),
succeeds exactly when n = 0; when n is nonzero it yields a server error
carrying n and the unescaped text of the message up to but not including
its first equals sign — the msg token is split on the equals sign and
only piece 1 is kept, so a message containing a further equals sign is
truncated, the same truncation as in record parsing; the concrete
512-example still decodes to id 512 with message `invalid clientID`; a
malformed status line (missing tokens, a token without an equals sign, a
non-numeric id, or an id exceeding usize::MAX) yields the
invalid-response framing error, a constructor distinct from the server
error; and reading a response whose only line is `error id=0 msg=ok`
terminated by 13 succeeds with zero accumulated data lines. -/
theorem check_ok_spec_amended (n : Nat) (idStr m1 m2 bad : Bytes)
    (hid : parseNat? idStr = some n)
    (hm132 : ∀ b ∈ m1, b ≠ 32) (hm161 : ∀ b ∈ m1, b ≠ 61)
    (hm232 : ∀ b ∈ m2, b ≠ 32)
    (hbad32 : ∀ b ∈ bad, b ≠ 32) (hbad61 : ∀ b ∈ bad, b ≠ 61)
    (hbadparse : parseNat? bad = none) :
    (check_ok (mkStatusLine idStr m1)
        = if n = 0 then .ok else .serverError n (unescape_val m1))
      ∧ (check_ok (mkStatusLine idStr (m1 ++ 61 :: m2))
        = if n = 0 then .ok else .serverError n (unescape_val m1))
      ∧ check_ok (mkStatusLine bad m1) = .invalidResponse
      ∧ check_ok (bytes "error id=512 msg=invalid\\sclientID")
          = .serverError 512 (bytes "invalid clientID")
      ∧ (check_ok (bytes "error") = .invalidResponse
        ∧ check_ok (bytes "error id=0") = .invalidResponse
        ∧ check_ok (bytes "error id=x msg=ok") = .invalidResponse
        ∧ check_ok (bytes "error id msg=ok") = .invalidResponse
        ∧ check_ok (bytes "error id=18446744073709551616 msg=ok")
            = .invalidResponse
        ∧ ∀ i mm, CheckResult.invalidResponse ≠ CheckResult.serverError i mm)
      ∧ readResponse LIMIT_READ_LINES LIMIT_LINE_BYTES
          (bytes "error id=0 msg=ok" ++ [13]) = .ok [] := by
  have hidReq := parseNat?_no_sep idStr n hid
  have hid32 : ∀ b ∈ idStr, (fun x => x == (32 : Nat)) b = false :=
    fun b hb => (hidReq b hb).1
  have hid61 : ∀ b ∈ idStr, (fun x => x == (61 : Nat)) b = false :=
    fun b hb => (hidReq b hb).2
  have hm132f : ∀ b ∈ m1, (fun x => x == (32 : Nat)) b = false := by
    intro b hb; simpa using hm132 b hb
  have hm161f : ∀ b ∈ m1, (fun x => x == (61 : Nat)) b = false := by
    intro b hb; simpa using hm161 b hb
  have hbad32f : ∀ b ∈ bad, (fun x => x == (32 : Nat)) b = false := by
    intro b hb; simpa using hbad32 b hb
  have hbad61f : ∀ b ∈ bad, (fun x => x == (61 : Nat)) b = false := by
    intro b hb; simpa using hbad61 b hb
  have hm12 : ∀ b ∈ m1 ++ 61 :: m2, (fun x => x == (32 : Nat)) b = false := by
    intro b hb
    rcases List.mem_append.mp hb with hb | hb
    · exact hm132f b hb
    · rcases List.mem_cons.mp hb with hb | hb
      · subst hb; decide
      · simpa using hm232 b hb
  have hsplitm1 : splitChar 61 m1 = [m1] :=
    splitP_no_sep _ m1 hm161f
  have hsplitm12 : splitChar 61 (m1 ++ 61 :: m2)
      = m1 :: splitP (fun x => x == (61 : Nat)) m2 := by
    rw [splitChar,
      splitP_append_sep (fun x => x == (61 : Nat)) m1 m2 61 hm161f
        (by decide)]
  refine ⟨?_, ?_, ?_, by decide,
    ⟨by decide, by decide, by decide, by decide, by decide,
      fun i mm h => CheckResult.noConfusion h⟩,
    by decide⟩
  · rw [check_ok_mkStatusLine idStr m1 hid32 hid61 hm132f, hid, hsplitm1]
    by_cases hn : n = 0 <;> simp [hn, List.headI]
  · rw [check_ok_mkStatusLine idStr (m1 ++ 61 :: m2) hid32 hid61 hm12,
      hid, hsplitm12]
    by_cases hn : n = 0 <;> simp [hn, List.headI]
  · rw [check_ok_mkStatusLine bad m1 hbad32f hbad61f hm132f, hbadparse]

theorem check_ok_spec_amended_witness :
    parseNat? (bytes "512") = some 512 ∧
      check_ok (mkStatusLine (bytes "512") (bytes "a" ++ 61 :: bytes "b"))
        = if 512 = 0 then CheckResult.ok
          else CheckResult.serverError 512 (unescape_val (bytes "a")) :=
  ⟨by decide,
    (check_ok_spec_amended 512 (bytes "512") (bytes "a") (bytes "b")
      (bytes "x") (by decide) (by decide) (by decide) (by decide)
      (by decide) (by decide) (by decide)).2.1⟩

/-! ## C3/C4: DoS limits of the response reader -/

theorem readUntilCR_line (l : Bytes) :
    ∀ (s : Bytes) (limit : Nat), 13 ∉ l → l.length < limit →
      readUntilCR limit (l ++ 13 :: s)
        = (l ++ [13], s, limit - (l.length + 1)) := by
  induction l with
  | nil =>
    intro s limit _ hlen
    obtain ⟨k, rfl⟩ : ∃ k, limit = k + 1 := ⟨limit - 1, by omega⟩
    simp [readUntilCR]
  | cons b l ih =>
    intro s limit h13 hlen
    obtain ⟨k, rfl⟩ : ∃ k, limit = k + 1 := ⟨limit - 1, by omega⟩
    have hb : b ≠ 13 := fun e => h13 (e ▸ List.mem_cons_self b l)
    have h13l : 13 ∉ l := fun hm => h13 (List.mem_cons_of_mem b hm)
    have hlen2 : l.length < k := by
      simp only [List.length_cons] at hlen; omega
    show readUntilCR (k + 1) (b :: (l ++ 13 :: s)) = _
    rw [readUntilCR, if_neg hb, ih s k h13l hlen2]
    simp only [Prod.mk.injEq, List.cons_append, List.length_cons]
    exact ⟨trivial, trivial, by omega⟩

theorem validUtf8Fuel_ascii :
    ∀ (fuel : Nat) (s : Bytes), (∀ b ∈ s, b ≤ 127) → s.length ≤ fuel →
      validUtf8Fuel fuel s = true := by
  intro fuel
  induction fuel with
  | zero =>
    intro s h hlen
    cases s with
    | nil => rfl
    | cons b rest => simp at hlen
  | succ k ih =>
    intro s h hlen
    cases s with
    | nil => rfl
    | cons b rest =>
      have hb : b ≤ 127 := h b (List.mem_cons_self b rest)
      have hf : utf8Follow b = some [] := by
        unfold utf8Follow; rw [if_pos hb]
      rw [validUtf8Fuel, hf]
      show validUtf8Fuel k rest = true
      refine ih rest (fun x hx => h x (List.mem_cons_of_mem b hx)) ?_
      simp only [List.length_cons] at hlen
      omega

theorem validUtf8_ascii (l : Bytes) (h : ∀ b ∈ l, b ≤ 127) :
    validUtf8 l = true :=
  validUtf8Fuel_ascii l.length l h le_rfl

theorem decodeLine_subset (l : Bytes) : ∀ b ∈ decodeLine l, b ∈ l := by
  intro b hb
  unfold decodeLine at hb
  split_ifs at hb
  · exact List.dropLast_subset l hb
  · exact hb

/-- One iteration of the reader loop on a complete line within budget. -/
theorem readResponseLoop_cons (fuel limit : Nat) (l stream : Bytes)
    (acc : List Bytes) (h13 : 13 ∉ l) (hlen : l.length < limit) :
    readResponseLoop (fuel + 1) limit (l ++ 13 :: stream) acc
      = (if (decodeLine l).isEmpty then
           readResponseLoop fuel LIMIT_LINE_BYTES stream acc
         else if validUtf8 (decodeLine l) then
           if (bytes "error ").isPrefixOf (decodeLine l) then
             (match check_ok (decodeLine l) with
              | .ok => .ok acc
              | .serverError i m => .serverError i m
              | .invalidResponse => .invalidResponse)
           else
             readResponseLoop fuel LIMIT_LINE_BYTES stream
               (acc ++ [decodeLine l])
         else .utf8Error) := by
  rw [readResponseLoop, readUntilCR_line l stream limit h13 hlen]
  have hne : (l ++ [13]).isEmpty = false := by
    cases l <;> simp
  have hlast : (l ++ [13]).getLast? = some 13 := by
    simp [List.getLast?_concat]
  have hdrop : (l ++ [13]).dropLast = l := by
    simp [List.dropLast_concat]
  simp only [hne, hlast, hdrop, Bool.false_eq_true, if_false, decodeLine]
  simp

theorem readResponseLoop_limit (n : Nat) :
    ∀ (L : List Bytes) (extra : Bytes) (acc : List Bytes),
      n ≤ L.length →
      (∀ l ∈ L.take n, 13 ∉ l ∧ (∀ b ∈ l, b ≤ 127) ∧
          l.length < LIMIT_LINE_BYTES ∧
          (bytes "error ").isPrefixOf (decodeLine l) = false) →
      readResponseLoop n LIMIT_LINE_BYTES (encodeStream L ++ extra) acc
        = .responseLimit
            (acc ++ ((L.take n).map decodeLine).filter (fun l => !l.isEmpty)) := by
  induction n with
  | zero =>
    intro L extra acc _ _
    simp [readResponseLoop]
  | succ k ih =>
    intro L extra acc hlen hL
    match L with
    | [] => simp at hlen
    | l :: L' =>
      obtain ⟨h13, hascii, hlenl, herr⟩ := hL l (by simp)
      have hlen' : k ≤ L'.length := by
        simp only [List.length_cons] at hlen; omega
      have hL' : ∀ x ∈ L'.take k, 13 ∉ x ∧ (∀ b ∈ x, b ≤ 127) ∧
          x.length < LIMIT_LINE_BYTES ∧
          (bytes "error ").isPrefixOf (decodeLine x) = false := by
        intro x hx
        refine hL x ?_
        rw [List.take_succ_cons]
        exact List.mem_cons_of_mem l hx
      have hstream : encodeStream (l :: L') ++ extra
          = l ++ 13 :: (encodeStream L' ++ extra) := by
        simp [encodeStream]
      rw [hstream, readResponseLoop_cons k LIMIT_LINE_BYTES l
        (encodeStream L' ++ extra) acc h13 hlenl]
      by_cases hemp : (decodeLine l).isEmpty
      · rw [if_pos hemp, ih L' extra acc hlen' hL']
        simp [List.take_succ_cons, List.filter_cons, hemp]
      · rw [if_neg hemp,
          if_pos (validUtf8_ascii (decodeLine l)
            (fun b hb => hascii b (decodeLine_subset l b hb))),
          if_neg (by rw [herr]; exact Bool.false_ne_true),
          ih L' extra (acc ++ [decodeLine l]) hlen' hL']
        have hempf : (decodeLine l).isEmpty = false := by
          cases hfe : (decodeLine l).isEmpty
          · rfl
          · exact absurd hfe hemp
        simp [List.take_succ_cons, List.filter_cons, hempf]

theorem readResponseLoop_ok_no_blank :
    ∀ (fuel limit : Nat) (stream : Bytes) (acc res : List Bytes),
      (∀ l ∈ acc, l ≠ []) →
      readResponseLoop fuel limit stream acc = .ok res →
      ∀ l ∈ res, l ≠ [] := by
  intro fuel
  induction fuel with
  | zero =>
    intro limit stream acc res hacc h
    exact absurd h (by simp [readResponseLoop])
  | succ k ih =>
    intro limit stream acc res hacc h
    rw [readResponseLoop] at h
    rcases hru : readUntilCR limit stream with ⟨buffer, rest, rem⟩
    rw [hru] at h
    dsimp only at h
    by_cases h1 : buffer.isEmpty
    · rw [if_pos h1] at h; exact absurd h (by simp)
    · rw [if_neg h1] at h
      by_cases h2 : buffer.getLast? = some 13
      · rw [if_pos h2] at h
        set line := if buffer.dropLast.getLast? = some 10 then
          buffer.dropLast.dropLast else buffer.dropLast with hline
        by_cases h3 : line.isEmpty
        · rw [if_pos h3] at h
          exact ih _ _ _ _ hacc h
        · rw [if_neg h3] at h
          by_cases h4 : validUtf8 line
          · rw [if_pos h4] at h
            by_cases h5 : (bytes "error ").isPrefixOf line
            · rw [if_pos h5] at h
              rcases hco : check_ok line with _ | ⟨i, msg⟩ | _ <;>
                rw [hco] at h
              · have hres : res = acc := by
                  cases h; rfl
                subst hres
                exact hacc
              · exact absurd h (by simp)
              · exact absurd h (by simp)
            · rw [if_neg h5] at h
              refine ih _ _ _ _ ?_ h
              intro x hx
              rcases List.mem_append.mp hx with hx | hx
              · exact hacc x hx
              · have hxl : x = line := by simpa using hx
                subst hxl
                intro hnil
                rw [hnil] at h3
                exact h3 rfl
          · rw [if_neg h4] at h
            exact absurd h (by simp)
      · rw [if_neg h2] at h
        by_cases h6 : rem = 0
        · rw [if_pos h6] at h; exact absurd h (by simp)
        · rw [if_neg h6] at h; exact absurd h (by simp)

/-- C3.
For every response stream that provides at least `limit_lines` complete
terminated lines — each ASCII, free of the 13 terminator, within the byte
budget, and not starting with the status token `error ` after decoding —
`read_response` fails with the DoS-limit (ResponseLimit) error whose value
is exactly the non-empty decoded lines among the first `limit_lines`
lines, in their original order: blank decoded lines are never appended yet
each consumes one unit of the line budget; and no successful read ever
returns a blank line. -/
theorem read_response_line_limit (n : Nat) (L : List Bytes) (extra : Bytes)
    (hlen : n ≤ L.length)
    (hL : ∀ l ∈ L.take n, 13 ∉ l ∧ (∀ b ∈ l, b ≤ 127) ∧
        l.length < LIMIT_LINE_BYTES ∧
        (bytes "error ").isPrefixOf (decodeLine l) = false) :
    readResponse n LIMIT_LINE_BYTES (encodeStream L ++ extra)
        = .responseLimit
            (((L.take n).map decodeLine).filter (fun l => !l.isEmpty))
      ∧ ∀ (fuel lb : Nat) (stream : Bytes) (res : List Bytes),
          readResponse fuel lb stream = .ok res → ∀ l ∈ res, l ≠ [] := by
  constructor
  · have h := readResponseLoop_limit n L extra [] hlen hL
    simpa [readResponse] using h
  · intro fuel lb stream res h
    exact readResponseLoop_ok_no_blank fuel lb stream [] res (by simp) h

theorem read_response_line_limit_witness :
    2 ≤ ([bytes "a", [], bytes "b"] : List Bytes).length ∧
      readResponse 2 LIMIT_LINE_BYTES
          (encodeStream [bytes "a", [], bytes "b"] ++ [])
        = .responseLimit
            ((([bytes "a", [], bytes "b"].take 2).map decodeLine).filter
              (fun l => !l.isEmpty)) :=
  ⟨by decide,
    (read_response_line_limit 2 [bytes "a", [], bytes "b"] [] (by decide)
      (by decide)).1⟩

/-- C4: evaluation at the failing input.  With the per-line byte budget
configured to 5, the second line of the stream is 8 bytes long and so
exhausts the configured budget well before its terminator, yet
`read_response` succeeds and returns it: the loop resets the byte budget
to the constant default `LIMIT_LINE_BYTES` (src/lib.rs:838) instead of the
configured `limit_lines_bytes`, so the configured budget only governs the
first line, contrary to the claim (and to the documentation of
`limit_line_bytes`, src/lib.rs:471-475). -/
theorem read_response_budget_reset_constant :
    readResponse 3 5
        (bytes "ab" ++ [13] ++ (bytes "abcdefgh" ++ [13])
          ++ (bytes "error id=0 msg=ok" ++ [13]))
      = .ok [bytes "ab", bytes "abcdefgh"]
    ∧ 5 < (bytes "abcdefgh").length + 1 := by decide

/-! ## C8: name-retry derivation -/

theorem natDigitsAux_append (n : Nat) :
    ∀ acc, ∃ l, natDigitsAux n acc = l ++ acc := by
  induction n using Nat.strong_induction_on with
  | _ n ih =>
    match n with
    | 0 => exact fun acc => ⟨[], by simp [natDigitsAux]⟩
    | m + 1 =>
      intro acc
      obtain ⟨l, hl⟩ := ih ((m + 1) / 10)
        (Nat.div_lt_self (Nat.succ_pos m) (by omega))
        (((m + 1) % 10 + 48) :: acc)
      refine ⟨l ++ [(m + 1) % 10 + 48], ?_⟩
      rw [natDigitsAux, hl]
      simp

theorem natDigits_ne_nil (n : Nat) : natDigits n ≠ [] := by
  unfold natDigits
  split_ifs with h
  · simp
  · match n, h with
    | 0, h => exact absurd rfl h
    | m + 1, _ =>
      obtain ⟨l, hl⟩ := natDigitsAux_append ((m + 1) / 10)
        ([(m + 1) % 10 + 48])
      rw [natDigitsAux, hl]
      simp

theorem calc_name_retry_decomp (name : Bytes) (t : Nat) :
    ∃ suffix : Bytes, suffix ≠ [] ∧
      calc_name_retry name t = calcNameBase name ++ suffix ∧
      (calcNameBase name).length + suffix.length ≤ MAX_LEN_NAME := by
  have hbase : (calcNameBase name).length ≤ 17 := by
    unfold calcNameBase MAX_LEN_NAME
    split_ifs with h
    · simp only [List.length_take]
      omega
    · simp only [MAX_LEN_NAME] at h
      omega
  have htd := natDigits_ne_nil t
  have htlen : 0 < (natDigits t).length := List.length_pos.mpr htd
  refine ⟨if (natDigits t).length < MAX_LEN_NAME - (calcNameBase name).length
      then natDigits t
      else (natDigits t).drop
        ((natDigits t).length - (MAX_LEN_NAME - (calcNameBase name).length)),
    ?_, ?_, ?_⟩
  · split_ifs with h
    · exact htd
    · intro hnil
      have hlen := congrArg List.length hnil
      simp only [List.length_drop, List.length_nil, MAX_LEN_NAME] at hlen h
      omega
  · rfl
  · split_ifs with h
    · simp only [MAX_LEN_NAME] at h ⊢
      omega
    · simp only [List.length_drop, MAX_LEN_NAME] at h ⊢
      omega

/-- C8.
For every name and every wall-clock timestamp, `calc_name_retry` returns
the base name — the first ten bytes when the name length is at least 18,
the whole name otherwise — followed by a non-empty timestamp suffix, with
total length at most 20 and hence strictly longer than the base; in
particular the result for `ct_bot` starts with `ct_bot` and is strictly
longer, and for any 21-byte name the result starts with the first ten
bytes of the input. -/
theorem calc_name_retry_spec (name : Bytes) (t : Nat) :
    (∃ suffix : Bytes, suffix ≠ [] ∧
        calc_name_retry name t = calcNameBase name ++ suffix)
      ∧ (calc_name_retry name t).length ≤ MAX_LEN_NAME
      ∧ (calcNameBase name).length < (calc_name_retry name t).length
      ∧ ((calc_name_retry (bytes "ct_bot") t).take 6 = bytes "ct_bot"
        ∧ 6 < (calc_name_retry (bytes "ct_bot") t).length)
      ∧ (name.length = 21 →
          (calc_name_retry name t).take 10 = name.take 10) := by
  obtain ⟨suffix, hne, heq, hle⟩ := calc_name_retry_decomp name t
  obtain ⟨s6, hne6, heq6, hle6⟩ := calc_name_retry_decomp (bytes "ct_bot") t
  have hslen : 0 < suffix.length := List.length_pos.mpr hne
  have hslen6 : 0 < s6.length := List.length_pos.mpr hne6
  have hbase6 : calcNameBase (bytes "ct_bot") = bytes "ct_bot" := by decide
  refine ⟨⟨suffix, hne, heq⟩, ?_, ?_, ⟨?_, ?_⟩, ?_⟩
  · rw [heq, List.length_append]
    exact hle
  · rw [heq, List.length_append]
    omega
  · rw [heq6, hbase6]
    have h := List.take_left (bytes "ct_bot") s6
    have hlen6 : (bytes "ct_bot").length = 6 := by decide
    rw [hlen6] at h
    exact h
  · rw [heq6, hbase6, List.length_append]
    have hlen6 : (bytes "ct_bot").length = 6 := by decide
    omega
  · intro h21
    have hbase21 : calcNameBase name = name.take 10 := by
      unfold calcNameBase
      rw [if_pos (by simp only [MAX_LEN_NAME]; omega)]
      norm_num [MAX_LEN_NAME]
    rw [heq, hbase21]
    have h := List.take_left (name.take 10) suffix
    have hlen10 : (name.take 10).length = 10 := by
      simp only [List.length_take]
      omega
    rw [hlen10] at h
    exact h

theorem calc_name_retry_spec_witness :
    (bytes "abcdefghijklmnopqrstu").length = 21 ∧
      (calc_name_retry (bytes "abcdefghijklmnopqrstu") 0).take 10
        = (bytes "abcdefghijklmnopqrstu").take 10 :=
  ⟨by decide,
    (calc_name_retry_spec (bytes "abcdefghijklmnopqrstu") 0).2.2.2.2
      (by decide)⟩

/-! ## C9: clone ignores the requested name override -/

/-- C9: the claim matches the documented intent and the code contradicts
it: `clone` builds the name-overridden copy of the configuration and then
passes `self.cfg.clone()` — the unmodified original — to `Self::new`, so
the override is silently dropped.  Evaluated at a concrete input: cloning
with new name `other` still uses configuration name `orig`, differing from
the spec-modelled intended configuration. -/
theorem clone_ignores_new_name :
    (clone_config cfgOrig (some (bytes "other"))).name = some (bytes "orig")
      ∧ clone_config cfgOrig (some (bytes "other"))
          ≠ clone_config_intended cfgOrig (some (bytes "other")) := by decide

/-! ## C10: typed extraction helpers -/

theorem lookupRec_erase (m : Record) (k : Bytes) :
    lookupRec (m.filter (fun p => !(p.1 == k))) k = none := by
  unfold lookupRec
  have h : (m.filter (fun p => !(p.1 == k))).find? (fun p => p.1 == k)
      = none := by
    rw [List.find?_eq_none]
    intro x hx
    have hmem := (List.mem_filter.mp hx).2
    simp only [Bool.not_eq_true'] at hmem
    simp [hmem]
  rw [h]
  rfl

/-- C10.
Each typed extraction helper removes the key from the record on every
call, whatever the outcome; a key that was never present yields the
field-missing error; a key present but mapped to no value yields the
value-missing error where a value is required; and a present value that
does not parse as the requested numeric type yields the type error. -/
theorem val_parser_spec (m : Record) (k : Bytes) :
    (lookupRec (string_val_parser_opt m k).2 k = none
      ∧ lookupRec (stringValParser m k).2 k = none
      ∧ lookupRec (intValParser m k).2 k = none
      ∧ lookupRec (intListValParser m k).2 k = none)
    ∧ (lookupRec m k = none →
        (string_val_parser_opt m k).1 = .error (.noEntryResponse k)
        ∧ (stringValParser m k).1 = .error (.noEntryResponse k)
        ∧ (intValParser m k).1 = .error (.noEntryResponse k)
        ∧ (intListValParser m k).1 = .error (.noEntryResponse k))
    ∧ (lookupRec m k = some none →
        (stringValParser m k).1 = .error (.noValueResponse k)
        ∧ (intValParser m k).1 = .error (.noValueResponse k)
        ∧ (intListValParser m k).1 = .error (.noValueResponse k))
    ∧ (∀ v, lookupRec m k = some (some v) → parseInt? v = none →
        (intValParser m k).1 = .error (.invalidIntResponse v)) := by
  rcases hlk : lookupRec m k with _ | v
  · have hsvo : string_val_parser_opt m k
        = (.error (.noEntryResponse k), m.filter (fun p => !(p.1 == k))) := by
      simp only [string_val_parser_opt, removeRec, hlk]
    have hsv : stringValParser m k
        = (.error (.noEntryResponse k), m.filter (fun p => !(p.1 == k))) := by
      simp only [stringValParser, hsvo]
    have hiv : intValParser m k
        = (.error (.noEntryResponse k), m.filter (fun p => !(p.1 == k))) := by
      simp only [intValParser, removeRec, hlk]
    have hil : intListValParser m k
        = (.error (.noEntryResponse k), m.filter (fun p => !(p.1 == k))) := by
      simp only [intListValParser, hsv]
    refine ⟨⟨?_, ?_, ?_, ?_⟩, fun _ => ⟨?_, ?_, ?_, ?_⟩,
      fun h => ?_, fun v hv _ => ?_⟩
    · rw [hsvo]; exact lookupRec_erase m k
    · rw [hsv]; exact lookupRec_erase m k
    · rw [hiv]; exact lookupRec_erase m k
    · rw [hil]; exact lookupRec_erase m k
    · rw [hsvo]
    · rw [hsv]
    · rw [hiv]
    · rw [hil]
    · exact absurd h (by simp)
    · exact absurd hv (by simp)
  · rcases v with _ | v0
    · have hsvo : string_val_parser_opt m k
          = (.ok none, m.filter (fun p => !(p.1 == k))) := by
        simp only [string_val_parser_opt, removeRec, hlk, Option.map_none']
      have hsv : stringValParser m k
          = (.error (.noValueResponse k), m.filter (fun p => !(p.1 == k))) := by
        simp only [stringValParser, hsvo]
      have hiv : intValParser m k
          = (.error (.noValueResponse k), m.filter (fun p => !(p.1 == k))) := by
        simp only [intValParser, removeRec, hlk]
      have hil : intListValParser m k
          = (.error (.noValueResponse k), m.filter (fun p => !(p.1 == k))) := by
        simp only [intListValParser, hsv]
      refine ⟨⟨?_, ?_, ?_, ?_⟩, fun h => ?_, fun _ => ⟨?_, ?_, ?_⟩,
        fun v hv _ => ?_⟩
      · rw [hsvo]; exact lookupRec_erase m k
      · rw [hsv]; exact lookupRec_erase m k
      · rw [hiv]; exact lookupRec_erase m k
      · rw [hil]; exact lookupRec_erase m k
      · exact absurd h (by simp)
      · rw [hsv]
      · rw [hiv]
      · rw [hil]
      · exact absurd hv (by simp)
    · have hsvo : string_val_parser_opt m k
          = (.ok (some (unescape_val v0)),
              m.filter (fun p => !(p.1 == k))) := by
        simp only [string_val_parser_opt, removeRec, hlk, Option.map_some']
      have hsv : stringValParser m k
          = (.ok (unescape_val v0), m.filter (fun p => !(p.1 == k))) := by
        simp only [stringValParser, hsvo]
      have hil : intListValParser m k
          = (parseIntPieces (splitChar 44 (unescape_val v0)),
              m.filter (fun p => !(p.1 == k))) := by
        simp only [intListValParser, hsv]
      rcases hpv : parseInt? v0 with _ | n
      · have hiv : intValParser m k
            = (.error (.invalidIntResponse v0),
                m.filter (fun p => !(p.1 == k))) := by
          simp only [intValParser, removeRec, hlk, hpv]
        refine ⟨⟨?_, ?_, ?_, ?_⟩, fun h => ?_, fun h => ?_,
          fun v hv _ => ?_⟩
        · rw [hsvo]; exact lookupRec_erase m k
        · rw [hsv]; exact lookupRec_erase m k
        · rw [hiv]; exact lookupRec_erase m k
        · rw [hil]; exact lookupRec_erase m k
        · exact absurd h (by simp)
        · exact absurd h (by simp)
        · have hveq : v0 = v := by simpa using hv
          subst hveq
          rw [hiv]
      · have hiv : intValParser m k
            = (.ok n, m.filter (fun p => !(p.1 == k))) := by
          simp only [intValParser, removeRec, hlk, hpv]
        refine ⟨⟨?_, ?_, ?_, ?_⟩, fun h => ?_, fun h => ?_,
          fun v hv hpv2 => ?_⟩
        · rw [hsvo]; exact lookupRec_erase m k
        · rw [hsv]; exact lookupRec_erase m k
        · rw [hiv]; exact lookupRec_erase m k
        · rw [hil]; exact lookupRec_erase m k
        · exact absurd h (by simp)
        · exact absurd h (by simp)
        · have hveq : v0 = v := by simpa using hv
          subst hveq
          rw [hpv] at hpv2
          exact absurd hpv2 (by simp)

theorem val_parser_spec_witness :
    lookupRec [(bytes "a", some (bytes "1")), (bytes "b", none)] (bytes "b")
        = some none
      ∧ (stringValParser [(bytes "a", some (bytes "1")), (bytes "b", none)]
          (bytes "b")).1 = .error (.noValueResponse (bytes "b")) :=
  ⟨by decide,
    ((val_parser_spec [(bytes "a", some (bytes "1")), (bytes "b", none)]
      (bytes "b")).2.2.1 (by decide)).1⟩


end Ts3
